import Mathlib

/-!
# Verification of the odonto_prescriptions consolidation pipeline

Shallow embedding of `scripts/build_prescricoes_parquet.py` (and the shared
normalization expression of `scripts/filter_controlled_parquet.py`).

Strings are modelled as `List Char`; a nullable cell is `Option Str`.
Polars string expressions become pure Lean functions on `Str`, null-propagating
through `Option.map`.  Dataframes become lists of rows; lazy evaluation is
immaterial for the row-level semantics and is modelled by ordinary function
composition.
-/

/-- Strings are modelled as lists of characters. -/
abbrev Str := List Char

/-- The whitespace class matched by the regex `\s` in the normalization
expressions (space, tab, newline, carriage return, vertical tab, form feed). -/
def isWs (c : Char) : Bool :=
  c = ' ' || c = '\t' || c = '\n' || c = '\r' || c = '\x0b' || c = '\x0c'

/-- `Expr.str.to_uppercase`: uppercase every character. -/
def strToUppercase (s : Str) : Str := s.map Char.toUpper

/-- `Expr.str.strip_chars()` with no argument: remove leading and trailing
whitespace. -/
def strStripChars (s : Str) : Str := (s.dropWhile isWs).rdropWhile isWs

/-- `Expr.str.replace(r"\s+", " ", literal=False)`: polars `str.replace`
replaces only the first regex match, so only the leftmost maximal whitespace
run is replaced by a single space; later runs are left untouched. -/
def strReplaceFirstWs : Str → Str
  | [] => []
  | c :: cs => if isWs c then ' ' :: cs.dropWhile isWs else c :: strReplaceFirstWs cs

/-- `normalize_key_expr` from `scripts/build_prescricoes_parquet.py` lines
16-23: cast to Utf8 (identity on strings), uppercase, strip, then the
`str.replace` call on `\s+`. -/
def normalize_key_expr (s : Str) : Str :=
  strReplaceFirstWs (strStripChars (strToUppercase s))

/-- Null propagation: every string expression in the chain maps null to null. -/
def normalizeOpt (v : Option Str) : Option Str := v.map normalize_key_expr

/-- Helper for the spec-side collapse: the boolean records whether the previous
character was whitespace (so a run contributes exactly one space). -/
def collapseWsAux : Bool → Str → Str
  | _, [] => []
  | inWs, c :: cs =>
    if isWs c then (if inWs then [] else [' ']) ++ collapseWsAux true cs
    else c :: collapseWsAux false cs

/-- Modelled from the spec's words only (for contrast with the code): collapse
EVERY interior run of whitespace to a single space. -/
def collapseAllWs (s : Str) : Str := collapseWsAux false s

/-- The normalizer as the spec describes it: uppercase, trim, collapse every
interior whitespace run. -/
def normalize_key_spec (s : Str) : Str :=
  collapseAllWs (strStripChars (strToUppercase s))

/-- C1: the spec says every interior run of whitespace is collapsed to a single
space, but polars `str.replace` (as opposed to `str.replace_all`) rewrites only
the first regex match: on `"A  B  C"` the code leaves the second run intact,
producing `"A B  C"` instead of the spec's `"A B C"`.  The spec's own example
(`" Amoxicilina  500mg "` vs `"AMOXICILINA 500MG"`) has a single interior run
and does normalize to the same key. -/
theorem c1_normalize_first_run_only :
    normalize_key_expr ("A  B  C".data) = ("A B  C".data) ∧
    normalize_key_expr ("A  B  C".data) ≠ ("A B C".data) ∧
    normalize_key_spec ("A  B  C".data) = ("A B C".data) ∧
    normalize_key_expr (" Amoxicilina  500mg ".data) =
      normalize_key_expr ("AMOXICILINA 500MG".data) := by
  refine ⟨by decide, by decide, by decide, by decide⟩

/-- Evaluating `Char.ofNat` at the shifted code point of a lowercase letter. -/
theorem toNat_ofNat_lower (c : Char) (h : c.toNat ≥ 97 ∧ c.toNat ≤ 122) :
    (Char.ofNat (c.toNat - 32)).toNat = c.toNat - 32 := by
  have hv : (c.toNat - 32).isValidChar := Or.inl (by omega)
  simp only [Char.ofNat, hv, dif_pos]
  simp [Char.ofNatAux, Char.toNat, UInt32.toNat, BitVec.toNat_ofNatLt]

/-- Uppercasing a character twice is the same as uppercasing it once. -/
theorem char_toUpper_idem (c : Char) : c.toUpper.toUpper = c.toUpper := by
  simp only [Char.toUpper]
  split
  · rename_i h
    rw [if_neg]
    rw [toNat_ofNat_lower c h]
    omega
  · rfl

/-- The first character (if any) is not whitespace. -/
def noWsHead : Str → Prop
  | [] => True
  | c :: _ => isWs c = false

/-- The last character (if any) is not whitespace. -/
def noWsLast (s : Str) : Prop := ∀ c, s.getLast? = some c → isWs c = false

theorem noWsHead_dropWhile (l : Str) : noWsHead (l.dropWhile isWs) := by
  induction l with
  | nil => trivial
  | cons c cs ih =>
    by_cases h : isWs c
    · simpa [List.dropWhile_cons, h] using ih
    · simpa [List.dropWhile_cons, h] using by simpa [noWsHead] using eq_false_of_ne_true h

theorem dropWhile_eq_self_of_noWsHead {l : Str} (h : noWsHead l) :
    l.dropWhile isWs = l := by
  cases l with
  | nil => rfl
  | cons c cs => simp [List.dropWhile_cons, noWsHead] at h ⊢; simp [h]

theorem noWsHead_rdropWhile {l : Str} (h : noWsHead l) :
    noWsHead (l.rdropWhile isWs) := by
  obtain ⟨t, ht⟩ := List.rdropWhile_prefix isWs l
  cases hr : l.rdropWhile isWs with
  | nil => trivial
  | cons c cs =>
    rw [hr] at ht
    rw [← ht] at h
    exact h

theorem noWsLast_rdropWhile (l : Str) : noWsLast (l.rdropWhile isWs) := by
  intro c hc
  have hne : l.rdropWhile isWs ≠ [] := by
    intro hnil
    rw [hnil] at hc
    simp at hc
  have hg := List.getLast?_eq_getLast_of_ne_nil hne
  rw [hg] at hc
  have := List.rdropWhile_last_not isWs l hne
  rw [Option.some_inj.mp hc] at this
  exact eq_false_of_ne_true this

theorem rdropWhile_eq_self_of_noWsLast {l : Str} (h : noWsLast l) :
    l.rdropWhile isWs = l := by
  rw [List.rdropWhile_eq_self_iff]
  intro hl
  simpa using h (l.getLast hl) (List.getLast?_eq_getLast_of_ne_nil hl)

theorem noWsHead_strip (s : Str) : noWsHead (strStripChars s) :=
  noWsHead_rdropWhile (noWsHead_dropWhile s)

theorem noWsLast_strip (s : Str) : noWsLast (strStripChars s) :=
  noWsLast_rdropWhile _

theorem strip_eq_self {s : Str} (h1 : noWsHead s) (h2 : noWsLast s) :
    strStripChars s = s := by
  unfold strStripChars
  rw [dropWhile_eq_self_of_noWsHead h1, rdropWhile_eq_self_of_noWsLast h2]

theorem strRF_ne_nil {s : Str} (h : s ≠ []) : strReplaceFirstWs s ≠ [] := by
  cases s with
  | nil => exact absurd rfl h
  | cons c cs =>
    unfold strReplaceFirstWs
    split <;> simp

theorem noWsHead_strRF {s : Str} (h : noWsHead s) :
    noWsHead (strReplaceFirstWs s) := by
  cases s with
  | nil => trivial
  | cons c cs =>
    have hc : isWs c = false := h
    simp only [strReplaceFirstWs, hc, Bool.false_eq_true, if_false]
    exact hc

/-- A nonempty `dropWhile` has the same last element as the original list. -/
theorem getLast?_dropWhile (p : Char → Bool) :
    ∀ (l : Str), l.dropWhile p ≠ [] → (l.dropWhile p).getLast? = l.getLast? := by
  intro l
  induction l with
  | nil => intro h; exact absurd rfl h
  | cons a t ih =>
    intro h
    by_cases hp : p a
    · rw [List.dropWhile_cons_of_pos hp] at h ⊢
      rw [ih h]
      cases t with
      | nil => simp at h
      | cons b bs => rw [List.getLast?_cons_cons]
    · rw [List.dropWhile_cons_of_neg hp]

theorem noWsLast_cons {c : Char} {cs : Str} (h : noWsLast (c :: cs)) (hcs : cs ≠ []) :
    noWsLast cs := by
  intro d hd
  apply h d
  cases cs with
  | nil => exact absurd rfl hcs
  | cons b bs => rwa [List.getLast?_cons_cons]

theorem getLast?_cons_of_ne_nil {c : Char} {cs : Str} (hcs : cs ≠ []) :
    (c :: cs).getLast? = cs.getLast? := by
  cases cs with
  | nil => exact absurd rfl hcs
  | cons b bs => exact List.getLast?_cons_cons

theorem noWsLast_strRF {s : Str} (h : noWsLast s) :
    noWsLast (strReplaceFirstWs s) := by
  induction s with
  | nil => simpa [strReplaceFirstWs]
  | cons c cs ih =>
    by_cases hc : isWs c
    · simp only [strReplaceFirstWs, hc, if_true]
      intro x hx
      cases hd : cs.dropWhile isWs with
      | nil =>
        exfalso
        have hall : ∀ y ∈ cs, isWs y = true := List.dropWhile_eq_nil_iff.mp hd
        cases hcs : cs with
        | nil =>
          have := h c (by rw [hcs]; rfl)
          rw [this] at hc
          exact Bool.false_ne_true hc
        | cons b bs =>
          have hne : cs ≠ [] := by simp [hcs]
          have hlast := noWsLast_cons h hne
          have hg := List.getLast?_eq_getLast_of_ne_nil hne
          have hmem : cs.getLast hne ∈ cs := List.getLast_mem hne
          have := hlast (cs.getLast hne) hg
          rw [hall _ hmem] at this
          exact absurd this (by decide)
      | cons d ds =>
        have hdn : cs.dropWhile isWs ≠ [] := by simp [hd]
        have hcsne : cs ≠ [] := by
          intro hnil
          rw [hnil] at hd
          simp at hd
        rw [getLast?_cons_of_ne_nil hdn, getLast?_dropWhile isWs cs hdn] at hx
        exact noWsLast_cons h hcsne x hx
    · have hc' : isWs c = false := eq_false_of_ne_true hc
      simp only [strReplaceFirstWs, hc', Bool.false_eq_true, if_false]
      intro x hx
      cases hcs : cs with
      | nil =>
        rw [hcs] at hx
        simp only [strReplaceFirstWs, List.getLast?_singleton] at hx
        rw [← Option.some_inj.mp hx]
        exact hc'
      | cons b bs =>
        have hcsne : cs ≠ [] := by simp [hcs]
        have hrf : strReplaceFirstWs cs ≠ [] := strRF_ne_nil hcsne
        rw [getLast?_cons_of_ne_nil hrf] at hx
        exact ih (noWsLast_cons h hcsne) x hx

theorem strRF_idem (s : Str) :
    strReplaceFirstWs (strReplaceFirstWs s) = strReplaceFirstWs s := by
  induction s with
  | nil => rfl
  | cons c cs ih =>
    by_cases hc : isWs c
    · simp only [strReplaceFirstWs, hc, if_true, List.dropWhile_idempotent,
        show isWs ' ' = true by decide]
    · have hc' : isWs c = false := eq_false_of_ne_true hc
      simp only [strReplaceFirstWs, hc', Bool.false_eq_true, if_false, ih]

theorem mem_strRF {c : Char} {s : Str} (h : c ∈ strReplaceFirstWs s) :
    c = ' ' ∨ c ∈ s := by
  induction s with
  | nil => simp [strReplaceFirstWs] at h
  | cons a t ih =>
    by_cases ha : isWs a
    · simp only [strReplaceFirstWs, ha, if_true] at h
      rcases List.mem_cons.mp h with h1 | h1
      · exact Or.inl h1
      · exact Or.inr (List.mem_cons_of_mem a ((List.dropWhile_sublist isWs).subset h1))
    · have ha' : isWs a = false := eq_false_of_ne_true ha
      simp only [strReplaceFirstWs, ha', Bool.false_eq_true, if_false] at h
      rcases List.mem_cons.mp h with h1 | h1
      · exact Or.inr (h1 ▸ List.mem_cons_self a t)
      · rcases ih h1 with h2 | h2
        · exact Or.inl h2
        · exact Or.inr (List.mem_cons_of_mem a h2)

theorem mem_strip {c : Char} {s : Str} (h : c ∈ strStripChars s) : c ∈ s := by
  unfold strStripChars at h
  obtain ⟨t, ht⟩ := List.rdropWhile_prefix isWs (s.dropWhile isWs)
  have h1 : c ∈ s.dropWhile isWs := by
    rw [← ht]
    exact List.mem_append_left t h
  exact (List.dropWhile_sublist isWs).subset h1

theorem strToUppercase_eq_self {s : Str} (h : ∀ c ∈ s, c.toUpper = c) :
    strToUppercase s = s := by
  induction s with
  | nil => rfl
  | cons a t ih =>
    show Char.toUpper a :: strToUppercase t = a :: t
    rw [h a (List.mem_cons_self a t), ih fun c hc => h c (List.mem_cons_of_mem a hc)]

/-- C2: the join-key normalization is idempotent. -/
theorem c2_normalize_idempotent (s : Str) :
    normalize_key_expr (normalize_key_expr s) = normalize_key_expr s := by
  unfold normalize_key_expr
  have hupper :
      strToUppercase (strReplaceFirstWs (strStripChars (strToUppercase s))) =
        strReplaceFirstWs (strStripChars (strToUppercase s)) := by
    apply strToUppercase_eq_self
    intro c hc
    rcases mem_strRF hc with h1 | h1
    · rw [h1]; rfl
    · have h2 : c ∈ strToUppercase s := mem_strip h1
      obtain ⟨x, _, hx⟩ := List.mem_map.mp h2
      rw [← hx]
      exact char_toUpper_idem x
  rw [hupper]
  rw [strip_eq_self (noWsHead_strRF (noWsHead_strip _)) (noWsLast_strRF (noWsLast_strip _))]
  exact strRF_idem _

/-! ## Data model: source files, superset schema, projection -/

/-- One source CSV file: base name, header columns, and parsed rows.  A cell is
a nullable string (`ignore_errors=True` parsing null-coerces bad cells). -/
structure SrcFile where
  name : Str
  header : List Str
  rows : List (List (Option Str))
deriving DecidableEq

/-- Value of column `c` of a row laid out by `header`: the cast-to-text cell
when the column is present, the null literal otherwise (lines 113-120 of
`build_prescricoes_parquet.py`; the Utf8 cast is the identity here because all
cells are already modelled as text). -/
def getCol (header : List Str) (row : List (Option Str)) (c : Str) : Option Str :=
  match header, row with
  | [], _ => none
  | _ :: _, [] => none
  | h :: hs, v :: vs => if h = c then v else getCol hs vs c

/-- Projection of one row onto the superset schema: one entry per superset
column, in superset order. -/
def projectRow (header superset : List Str) (row : List (Option Str)) : List (Option Str) :=
  superset.map (getCol header row)

/-- The per-file projected dataset (`lf.select(selected)`). -/
def projectFile (superset : List Str) (f : SrcFile) : List (List (Option Str)) :=
  f.rows.map (projectRow f.header superset)

/-- Python string comparison: lexicographic by code point, a proper initial
segment is smaller. -/
def strLtB : Str → Str → Bool
  | [], [] => false
  | [], _ :: _ => true
  | _ :: _, [] => false
  | a :: as, b :: bs => if a < b then true else if b < a then false else strLtB as bs

/-- Non-strict counterpart used to state sortedness. -/
def strLe (a b : Str) : Prop := strLtB b a = false

/-- Insertion into a sorted list. -/
def insertStr (x : Str) : List Str → List Str
  | [] => [x]
  | y :: ys => if strLtB x y then x :: y :: ys else y :: insertStr x ys

/-- `sorted(...)` on a list of column names. -/
def sortStrs : List Str → List Str
  | [] => []
  | x :: xs => insertStr x (sortStrs xs)

/-- Duplicate removal, modelling the `set` union of observed column names
(membership is all that matters: the result is sorted afterwards). -/
def dedupStrs : List Str → List Str
  | [] => []
  | x :: xs => if x ∈ dedupStrs xs then dedupStrs xs else x :: dedupStrs xs

/-- All header columns of all files, in file order (`col_set.update(cols)`). -/
def unionCols : List SrcFile → List Str
  | [] => []
  | f :: fs => f.header ++ unionCols fs

/-- `superset_cols = sorted(col_set)` (lines 169-178). -/
def supersetCols (files : List SrcFile) : List Str :=
  sortStrs (dedupStrs (unionCols files))

theorem mem_dedupStrs {x : Str} {l : List Str} : x ∈ dedupStrs l ↔ x ∈ l := by
  induction l with
  | nil => simp [dedupStrs]
  | cons a t ih =>
    by_cases h : a ∈ dedupStrs t
    · simp only [dedupStrs, h, if_true, List.mem_cons, ih]
      constructor
      · exact Or.inr
      · rintro (rfl | hx)
        · exact ih.mp h
        · exact hx
    · simp only [dedupStrs, h, if_false, List.mem_cons, ih]

theorem nodup_dedupStrs (l : List Str) : (dedupStrs l).Nodup := by
  induction l with
  | nil => exact List.nodup_nil
  | cons a t ih =>
    by_cases h : a ∈ dedupStrs t
    · simpa [dedupStrs, h] using ih
    · simp only [dedupStrs, h, if_false]
      exact List.Nodup.cons h ih

theorem mem_insertStr {x y : Str} {l : List Str} :
    y ∈ insertStr x l ↔ y = x ∨ y ∈ l := by
  induction l with
  | nil => simp [insertStr]
  | cons a t ih =>
    by_cases h : strLtB x a
    · simp [insertStr, h, List.mem_cons]
    · have h' : strLtB x a = false := eq_false_of_ne_true h
      simp only [insertStr, h', Bool.false_eq_true, if_false, List.mem_cons, ih]
      tauto

theorem mem_sortStrs {x : Str} {l : List Str} : x ∈ sortStrs l ↔ x ∈ l := by
  induction l with
  | nil => simp [sortStrs]
  | cons a t ih => simp [sortStrs, mem_insertStr, ih]

theorem nodup_insertStr {x : Str} {l : List Str} (hx : x ∉ l) (hl : l.Nodup) :
    (insertStr x l).Nodup := by
  induction l with
  | nil => simp [insertStr]
  | cons a t ih =>
    by_cases h : strLtB x a
    · simp only [insertStr, h, if_true]
      exact List.Nodup.cons (by simpa using hx) hl
    · have h' : strLtB x a = false := eq_false_of_ne_true h
      simp only [insertStr, h', Bool.false_eq_true, if_false]
      refine List.Nodup.cons ?_ (ih (fun hm => hx (List.mem_cons_of_mem a hm)) (List.Nodup.of_cons hl))
      intro hm
      rcases mem_insertStr.mp hm with rfl | hm2
      · exact hx (List.mem_cons_self a t)
      · exact (List.nodup_cons.mp hl).1 hm2

theorem nodup_sortStrs {l : List Str} (hl : l.Nodup) : (sortStrs l).Nodup := by
  induction l with
  | nil => exact List.nodup_nil
  | cons a t ih =>
    have := List.nodup_cons.mp hl
    exact nodup_insertStr (fun hm => this.1 (mem_sortStrs.mp hm)) (ih this.2)

theorem strLtB_asymm : ∀ {a b : Str}, strLtB a b = true → strLtB b a = false
  | [], [], h => by simp [strLtB] at h
  | [], _ :: _, _ => rfl
  | _ :: _, [], h => by simp [strLtB] at h
  | a :: as, b :: bs, h => by
    simp only [strLtB] at h ⊢
    by_cases hab : a < b
    · rw [if_neg (lt_asymm hab), if_pos hab]
    · rw [if_neg hab] at h
      by_cases hba : b < a
      · rw [if_pos hba] at h
        exact absurd h (by simp)
      · rw [if_neg hba] at h
        rw [if_neg hba, if_neg hab]
        exact strLtB_asymm h

theorem strLe_total : ∀ (a b : Str), strLe a b ∨ strLe b a := by
  intro a b
  by_cases h : strLtB b a = true
  · exact Or.inr (strLtB_asymm h)
  · exact Or.inl (eq_false_of_ne_true h)

theorem strLe_trans : ∀ {a b c : Str}, strLe a b → strLe b c → strLe a c
  | [], _, c, _, _ => by cases c <;> rfl
  | _ :: _, [], _, h1, _ => by simp [strLe, strLtB] at h1
  | _ :: _, _ :: _, [], _, h2 => by simp [strLe, strLtB] at h2
  | a :: as, b :: bs, c :: cs, h1, h2 => by
    simp only [strLe, strLtB] at h1 h2 ⊢
    by_cases hba : b < a
    · rw [if_pos hba] at h1
      exact absurd h1 (by simp)
    · rw [if_neg hba] at h1
      by_cases hcb : c < b
      · rw [if_pos hcb] at h2
        exact absurd h2 (by simp)
      · rw [if_neg hcb] at h2
        have hab : a ≤ b := le_of_not_lt hba
        have hbc : b ≤ c := le_of_not_lt hcb
        have hca : ¬c < a := not_lt_of_le (le_trans hab hbc)
        rw [if_neg hca]
        by_cases hac : a < c
        · rw [if_pos hac]
        · rw [if_neg hac]
          have haceq : a = c := le_antisymm (le_trans hab hbc) (le_of_not_lt hac)
          have habeq : a = b := le_antisymm hab (le_trans hbc (le_of_eq haceq.symm))
          have hnab : ¬a < b := by rw [← habeq]; exact lt_irrefl a
          have hnbc : ¬b < c := by rw [← habeq, ← haceq]; exact lt_irrefl a
          rw [if_neg hnab] at h1
          rw [if_neg hnbc] at h2
          exact strLe_trans h1 h2

theorem pairwise_insertStr {x : Str} {l : List Str} (hl : List.Pairwise strLe l) :
    List.Pairwise strLe (insertStr x l) := by
  induction l with
  | nil => simp [insertStr]
  | cons a t ih =>
    have ha := List.pairwise_cons.mp hl
    by_cases h : strLtB x a
    · simp only [insertStr, h, if_true]
      refine List.Pairwise.cons ?_ hl
      intro y hy
      rcases List.mem_cons.mp hy with rfl | hyt
      · exact strLtB_asymm h
      · exact strLe_trans (strLtB_asymm h) (ha.1 y hyt)
    · have h' : strLtB x a = false := eq_false_of_ne_true h
      simp only [insertStr, h', Bool.false_eq_true, if_false]
      refine List.Pairwise.cons ?_ (ih ha.2)
      intro y hy
      rcases mem_insertStr.mp hy with rfl | hyt
      · exact h'
      · exact ha.1 y hyt

theorem pairwise_sortStrs (l : List Str) : List.Pairwise strLe (sortStrs l) := by
  induction l with
  | nil => simp [sortStrs]
  | cons a t ih => exact pairwise_insertStr ih

theorem mem_unionCols {c : Str} : ∀ {files : List SrcFile},
    (c ∈ unionCols files ↔ ∃ f ∈ files, c ∈ f.header)
  | [] => by simp [unionCols]
  | f :: fs => by
    simp only [unionCols, List.mem_append, mem_unionCols, List.mem_cons]
    constructor
    · rintro (h | ⟨g, hg, hc⟩)
      · exact ⟨f, Or.inl rfl, h⟩
      · exact ⟨g, Or.inr hg, hc⟩
    · rintro ⟨g, rfl | hg, hc⟩
      · exact Or.inl hc
      · exact Or.inr ⟨g, hg, hc⟩

/-- C8: the per-file projected dataset has exactly the superset columns — one
entry per superset column in superset order, present columns carrying the
cast-to-text cell and absent columns null — and the superset is a duplicate-free
sorted enumeration of exactly the union of all files' header columns. -/
theorem c8_projected_superset_schema (files : List SrcFile) (f : SrcFile)
    (hf : f ∈ files) (row : List (Option Str)) (hrow : row ∈ projectFile (supersetCols files) f) :
    row.length = (supersetCols files).length ∧
    (∀ c, c ∈ supersetCols files ↔ ∃ g ∈ files, c ∈ g.header) ∧
    (supersetCols files).Nodup ∧
    List.Pairwise strLe (supersetCols files) ∧
    ∃ raw ∈ f.rows, ∀ i c, (supersetCols files).get? i = some c →
      row.get? i = some (getCol f.header raw c) := by
  obtain ⟨raw, hraw, hproj⟩ := List.mem_map.mp hrow
  refine ⟨?_, ?_, ?_, pairwise_sortStrs _, raw, hraw, ?_⟩
  · rw [← hproj]
    exact List.length_map _ _
  · intro c
    rw [supersetCols, mem_sortStrs, mem_dedupStrs, mem_unionCols]
  · exact nodup_sortStrs (nodup_dedupStrs _)
  · intro i c hc
    rw [← hproj, projectRow, List.get?_map, hc]
    rfl

/-- Witness for C8 at a concrete two-file run with ragged headers. -/
theorem c8_witness :
    let fA : SrcFile := ⟨"grouped_2020.csv".data, ["B".data, "A".data], [[some "x".data, none]]⟩
    let fB : SrcFile := ⟨"grouped_2021.csv".data, ["A".data, "C".data], [[none, some "y".data]]⟩
    fA ∈ [fA, fB] ∧
    projectRow fA.header (supersetCols [fA, fB]) [some "x".data, none] ∈
      projectFile (supersetCols [fA, fB]) fA ∧
    (projectRow fA.header (supersetCols [fA, fB]) [some "x".data, none]).length =
      (supersetCols [fA, fB]).length := by
  intro fA fB
  refine ⟨by decide, ?_, ?_⟩
  · exact List.mem_map.mpr ⟨[some "x".data, none], by decide, rfl⟩
  · exact (c8_projected_superset_schema [fA, fB] fA (by decide) _
      (List.mem_map.mpr ⟨[some "x".data, none], by decide, rfl⟩)).1

/-! ## Row enrichment: year, sequence number, ID -/

/-- Decimal rendering of a row number. -/
def natToStr (n : Nat) : Str := (Nat.repr n).data

/-- `str.zfill(w)`: left-pad with zeros up to width `w` (row numbers carry no
sign, so the sign-handling branch of zfill never applies). -/
def zfill (w : Nat) (s : Str) : Str := List.replicate (w - s.length) '0' ++ s

/-- A projected row after the `ano`, `row_number` and `ID` columns are attached
(lines 123-128). -/
structure NumberedRow where
  vals : List (Option Str)
  ano : Str
  row_number : Nat
  ID : Str
deriving DecidableEq

/-- Attach the literal year column, the 1-based row index, and the synthesized
`ID = ano + "-" + zfill8(row_number)`. -/
def addAnoIdx (ano : Str) (rows : List (List (Option Str))) : List NumberedRow :=
  rows.enum.map fun p =>
    ⟨p.2, ano, p.1 + 1, ano ++ '-' :: zfill 8 (natToStr (p.1 + 1))⟩

/-- C6: every row of a file receives `row_number = position + 1` (1-based,
contiguous, restarting with each per-file call) and
`ID = year ++ "-" ++ zero-pad-8(row_number)`, whose prefix is the year plus a
hyphen. -/
theorem c6_id_shape (ano : Str) (rows : List (List (Option Str))) :
    (addAnoIdx ano rows).length = rows.length ∧
    ∀ i r, (addAnoIdx ano rows).get? i = some r →
      r.ano = ano ∧ r.row_number = i + 1 ∧
      r.ID = ano ++ '-' :: zfill 8 (natToStr (i + 1)) ∧
      r.ID.take (ano.length + 1) = ano ++ ['-'] ∧
      rows.get? i = some r.vals := by
  constructor
  · rw [addAnoIdx, List.length_map, List.enum_length]
  · intro i r hr
    rw [addAnoIdx, List.get?_map, List.get?_enum] at hr
    cases hv : rows.get? i with
    | none => rw [hv] at hr; simp at hr
    | some v =>
      rw [hv] at hr
      simp only [Option.map_some'] at hr
      have hr' := Option.some_inj.mp hr
      refine ⟨by rw [← hr'], by rw [← hr'], by rw [← hr'], ?_, by rw [← hr']⟩
      rw [← hr']
      show (ano ++ '-' :: zfill 8 (natToStr (i + 1))).take (ano.length + 1) = ano ++ ['-']
      rw [List.take_append_eq_append_take, List.take_of_length_le (by omega)]
      have h1 : ano.length + 1 - ano.length = 1 := by omega
      rw [h1, List.take_succ_cons, List.take_zero]

/-- Concrete enriched row used to witness C6. -/
def exRow6 : NumberedRow :=
  ⟨[none], "2020".data, 2, "2020-00000002".data⟩

/-- Witness for C6: the second row of a two-row 2020 file gets sequence 2 and
ID `2020-00000002`. -/
theorem c6_id_shape_witness :
    exRow6.ano = "2020".data ∧ exRow6.row_number = 1 + 1 ∧
    exRow6.ID = "2020".data ++ '-' :: zfill 8 (natToStr (1 + 1)) ∧
    exRow6.ID.take (("2020".data).length + 1) = "2020".data ++ ['-'] ∧
    ([[some "a".data], [none]] : List (List (Option Str))).get? 1 = some exRow6.vals :=
  (c6_id_shape ("2020".data) [[some "a".data], [none]]).2 1 exRow6 (by decide)

/-! ## Year extraction from the filename (lines 97-101) -/

/-- Does the regex `20\d{2}` match at position `i`? -/
def yearAt (s : Str) (i : Nat) : Bool :=
  match s.drop i with
  | c0 :: c1 :: c2 :: c3 :: _ => c0 = '2' && c1 = '0' && c2.isDigit && c3.isDigit
  | _ => false

/-- `year_from_filename`: `re.search` scans left to right and returns the first
match of `20\d{2}`; no match raises `ValueError` (modelled as `none`). -/
def year_from_filename : Str → Option Str
  | [] => none
  | c0 :: rest =>
    match rest with
    | c1 :: c2 :: c3 :: _ =>
      if c0 = '2' && c1 = '0' && c2.isDigit && c3.isDigit then some [c0, c1, c2, c3]
      else year_from_filename rest
    | _ => none

theorem yearAt_short {s : Str} (h : s.length < 4) (i : Nat) : yearAt s i = false := by
  unfold yearAt
  have hlen : (s.drop i).length < 4 := by
    rw [List.length_drop]
    omega
  cases hd : s.drop i with
  | nil => rfl
  | cons a t =>
    cases t with
    | nil => rfl
    | cons b u =>
      cases u with
      | nil => rfl
      | cons c v =>
        cases v with
        | nil => rfl
        | cons d w =>
          rw [hd] at hlen
          simp at hlen
          omega

theorem yearAt_succ (c : Char) (s : Str) (i : Nat) :
    yearAt (c :: s) (i + 1) = yearAt s i := by
  unfold yearAt
  rw [List.drop_succ_cons]

theorem yearAt_zero_cons (c0 c1 c2 c3 : Char) (t : Str) :
    yearAt (c0 :: c1 :: c2 :: c3 :: t) 0 =
      (c0 = '2' && c1 = '0' && c2.isDigit && c3.isDigit) := rfl

/-- C9: year extraction fails (aborting the run) exactly when no position of
the base name matches `20\d{2}`; on success the returned year is the leftmost
match. -/
theorem c9_year_extraction (s : Str) :
    (year_from_filename s = none ↔ ∀ i, yearAt s i = false) ∧
    ∀ y, year_from_filename s = some y →
      ∃ i, yearAt s i = true ∧ y = (s.drop i).take 4 ∧ ∀ j, j < i → yearAt s j = false := by
  induction s with
  | nil =>
    refine ⟨⟨fun _ i => yearAt_short (by simp) i, fun _ => rfl⟩, fun y hy => by simp [year_from_filename] at hy⟩
  | cons c0 rest ih =>
    match hrest : rest with
    | [] =>
      refine ⟨⟨fun _ i => yearAt_short (by simp) i, fun _ => rfl⟩, fun y hy => ?_⟩
      simp [year_from_filename] at hy
    | [c1] =>
      refine ⟨⟨fun _ i => yearAt_short (by simp) i, fun _ => rfl⟩, fun y hy => ?_⟩
      simp [year_from_filename] at hy
    | [c1, c2] =>
      refine ⟨⟨fun _ i => yearAt_short (by simp) i, fun _ => rfl⟩, fun y hy => ?_⟩
      simp [year_from_filename] at hy
    | c1 :: c2 :: c3 :: tail =>
      subst hrest
      by_cases hm : (c0 = '2' && c1 = '0' && c2.isDigit && c3.isDigit) = true
      · constructor
        · constructor
          · intro hnone
            exfalso
            simp only [year_from_filename, hm, if_true] at hnone
            exact Option.noConfusion hnone
          · intro hall
            have h0 := hall 0
            rw [yearAt_zero_cons, hm] at h0
            exact absurd h0 (by simp)
        · intro y hy
          simp only [year_from_filename, hm, if_true] at hy
          refine ⟨0, ?_, ?_, fun j hj => absurd hj (Nat.not_lt_zero j)⟩
          · rw [yearAt_zero_cons, hm]
          · rw [← Option.some_inj.mp hy]
            rfl
      · have hm' : (c0 = '2' && c1 = '0' && c2.isDigit && c3.isDigit) = false :=
          eq_false_of_ne_true hm
        have hstep : year_from_filename (c0 :: c1 :: c2 :: c3 :: tail) =
            year_from_filename (c1 :: c2 :: c3 :: tail) := by
          simp only [year_from_filename, hm', Bool.false_eq_true, if_false]
        constructor
        · rw [hstep]
          rw [ih.1]
          constructor
          · intro hall i
            cases i with
            | zero =>
              rw [yearAt_zero_cons, hm']
            | succ j =>
              rw [yearAt_succ]
              exact hall j
          · intro hall i
            have := hall (i + 1)
            rwa [yearAt_succ] at this
        · intro y hy
          rw [hstep] at hy
          obtain ⟨i, h1, h2, h3⟩ := ih.2 y hy
          refine ⟨i + 1, ?_, ?_, ?_⟩
          · rwa [yearAt_succ]
          · rwa [List.drop_succ_cons]
          · intro j hj
            cases j with
            | zero => rw [yearAt_zero_cons, hm']
            | succ k =>
              rw [yearAt_succ]
              exact h3 k (by omega)

/-- Witness for C9: `grouped_2020.csv` yields year `2020`, matching at
position 8 and nowhere earlier. -/
theorem c9_year_extraction_witness :
    ∃ i, yearAt ("grouped_2020.csv".data) i = true ∧
      ("2020".data : Str) = (("grouped_2020.csv".data).drop i).take 4 ∧
      ∀ j, j < i → yearAt ("grouped_2020.csv".data) j = false :=
  (c9_year_extraction ("grouped_2020.csv".data)).2 ("2020".data) (by decide)

/-! ## Dictionary builder (`build_dict_table`, lines 34-75) -/

/-- One dictionary row after locating the alias columns: the values of the
present alias columns (in the fixed order `PRINCIPIO_ATIVO`, `_1`, `_2`) and
the descriptor payload (all remaining columns). -/
structure DictRow where
  aliases : List (Option Str)
  descriptors : List (Option Str)
deriving DecidableEq

/-- The unpivoted long table (lines 61-68): one row per (alias column, dict
row) carrying the normalized key and the descriptors; polars `unpivot` stacks
the frame column-major (all rows of the first alias column, then the second,
...); the filter drops null and empty normalized keys. -/
def dictLong (rows : List DictRow) (nAlias : Nat) : List (Str × List (Option Str)) :=
  (((List.range nAlias).map fun j =>
      rows.filterMap fun r =>
        (normalizeOpt (r.aliases.getD j none)).map fun k => (k, r.descriptors)).flatten).filter
    fun p => !p.1.isEmpty

/-- The normalized keys of a mapping. -/
def mapKeys (m : List (Str × List (Option Str))) : List Str := m.map Prod.fst

/-- `long.unique(subset=["key_norm"])` with polars' defaults `keep="any"` and
`maintain_order=False`: the result has pairwise-distinct keys, every surviving
row is one of the input rows, and every input key survives — but WHICH of
several rows sharing a key is kept, and in what order, is unspecified. -/
def IsUniqueAny (raw result : List (Str × List (Option Str))) : Prop :=
  (mapKeys result).Nodup ∧ (∀ p ∈ result, p ∈ raw) ∧ ∀ p ∈ raw, p.1 ∈ mapKeys result

instance (raw result : List (Str × List (Option Str))) :
    Decidable (IsUniqueAny raw result) := by
  unfold IsUniqueAny
  infer_instance

/-- First-occurrence deduplication — what the spec (and the code's comment
`keep first occurrence per normalized key`) describes.  `seen` accumulates the
keys already kept. -/
def uniqueFirstAux (seen : List Str) : List (Str × List (Option Str)) → List (Str × List (Option Str))
  | [] => []
  | p :: ps =>
    if p.1 ∈ seen then uniqueFirstAux seen ps
    else p :: uniqueFirstAux (p.1 :: seen) ps

/-- Keep the first-encountered row for every normalized key. -/
def uniqueFirst (l : List (Str × List (Option Str))) : List (Str × List (Option Str)) :=
  uniqueFirstAux [] l

theorem uniqueFirstAux_subset :
    ∀ (seen : List Str) (l : List (Str × List (Option Str))) (p),
      p ∈ uniqueFirstAux seen l → p ∈ l := by
  intro seen l
  induction l generalizing seen with
  | nil => intro p hp; simpa [uniqueFirstAux] using hp
  | cons q qs ih =>
    intro p hp
    by_cases hq : q.1 ∈ seen
    · simp only [uniqueFirstAux, if_pos hq] at hp
      exact List.mem_cons_of_mem q (ih seen p hp)
    · simp only [uniqueFirstAux, if_neg hq] at hp
      rcases List.mem_cons.mp hp with rfl | hp2
      · exact List.mem_cons_self _ _
      · exact List.mem_cons_of_mem q (ih (q.1 :: seen) p hp2)

theorem uniqueFirstAux_keys_fresh :
    ∀ (seen : List Str) (l : List (Str × List (Option Str))),
      (∀ k ∈ mapKeys (uniqueFirstAux seen l), k ∉ seen) ∧
      (mapKeys (uniqueFirstAux seen l)).Nodup := by
  intro seen l
  induction l generalizing seen with
  | nil => exact ⟨fun k hk => by simp [uniqueFirstAux, mapKeys] at hk, by simp [uniqueFirstAux, mapKeys]⟩
  | cons q qs ih =>
    by_cases hq : q.1 ∈ seen
    · simpa only [uniqueFirstAux, if_pos hq] using ih seen
    · have ih' := ih (q.1 :: seen)
      constructor
      · intro k hk
        simp only [uniqueFirstAux, if_neg hq, mapKeys, List.map_cons, List.mem_cons] at hk
        rcases hk with rfl | hk2
        · exact hq
        · intro hks
          exact (ih'.1 k hk2) (List.mem_cons_of_mem q.1 hks)
      · simp only [uniqueFirstAux, if_neg hq, mapKeys, List.map_cons]
        refine List.Nodup.cons ?_ ih'.2
        intro hmem
        exact (ih'.1 q.1 hmem) (List.mem_cons_self q.1 seen)

theorem uniqueFirstAux_covers :
    ∀ (seen : List Str) (l : List (Str × List (Option Str))) (p),
      p ∈ l → p.1 ∉ seen → p.1 ∈ mapKeys (uniqueFirstAux seen l) := by
  intro seen l
  induction l generalizing seen with
  | nil => intro p hp; simp at hp
  | cons q qs ih =>
    intro p hp hps
    by_cases hq : q.1 ∈ seen
    · simp only [uniqueFirstAux, if_pos hq]
      rcases List.mem_cons.mp hp with rfl | hp2
      · exact absurd hq hps
      · exact ih seen p hp2 hps
    · simp only [uniqueFirstAux, if_neg hq, mapKeys, List.map_cons, List.mem_cons]
      rcases List.mem_cons.mp hp with rfl | hp2
      · exact Or.inl rfl
      · by_cases hpq : p.1 = q.1
        · exact Or.inl hpq
        · refine Or.inr (ih (q.1 :: seen) p hp2 ?_)
          intro hmem
          rcases List.mem_cons.mp hmem with h | h
          · exact hpq h
          · exact hps h

/-- First-occurrence deduplication is one admissible outcome of
`unique(keep="any")`. -/
theorem isUniqueAny_uniqueFirst (l : List (Str × List (Option Str))) :
    IsUniqueAny l (uniqueFirst l) :=
  ⟨(uniqueFirstAux_keys_fresh [] l).2,
   fun p hp => uniqueFirstAux_subset [] l p hp,
   fun p hp => uniqueFirstAux_covers [] l p hp (by simp)⟩

/-- Concrete dictionary with two rows whose alias values share a normalized
key. -/
def exDictRows : List DictRow :=
  [⟨[some "AMOXICILINA".data], [some "descA".data]⟩,
   ⟨[some " amoxicilina ".data], [some "descB".data]⟩]

/-- C4: the code deduplicates with `unique(subset=["key_norm"])`, whose default
`keep="any"` does NOT guarantee the first-encountered row survives: keeping the
second row's descriptors is an admissible outcome, while first-occurrence
deduplication (what the claim and the code's own comment state) keeps the
first row's. -/
theorem c4_unique_keep_any_not_first :
    IsUniqueAny (dictLong exDictRows 1) [("AMOXICILINA".data, [some "descB".data])] ∧
    uniqueFirst (dictLong exDictRows 1) = [("AMOXICILINA".data, [some "descA".data])] ∧
    ([some "descB".data] : List (Option Str)) ≠ [some "descA".data] := by
  refine ⟨by decide, by decide, by decide⟩

/-! ## Row enricher: join key and left join (`build_lazy_for_csv`, lines 104-137) -/

/-- The principal-substance column name. -/
def principioAtivo : Str := "PRINCIPIO_ATIVO".data

/-- A row after the join stage: the projected values, the attached `ano`,
`row_number` and `ID` columns, the join-key helper column, and the joined
descriptor payload (`none` models all-null descriptor fields). -/
structure EnrichedRow where
  vals : List (Option Str)
  ano : Str
  row_number : Nat
  ID : Str
  key_norm : Option Str
  desc : Option (List (Option Str))
deriving DecidableEq

/-- Attach the join key (lines 131-135): when the superset has a
`PRINCIPIO_ATIVO` column its value is normalized with the join profile,
otherwise the literal null is emitted.  Descriptor columns do not exist yet. -/
def addKey (superset : List Str) (r : NumberedRow) : EnrichedRow :=
  { vals := r.vals, ano := r.ano, row_number := r.row_number, ID := r.ID,
    key_norm :=
      if principioAtivo ∈ superset then normalizeOpt (getCol superset r.vals principioAtivo)
      else none,
    desc := none }

/-- The left-join image of one row: a null key matches nothing (polars joins
do not match null keys by default), an unmatched key keeps the descriptor
fields null, and each mapping row sharing the key produces one output row. -/
def joinRow (dmap : List (Str × List (Option Str))) (r : EnrichedRow) :
    List EnrichedRow :=
  match r.key_norm with
  | none => [{ r with desc := none }]
  | some k =>
    if (dmap.filter fun p => decide (p.1 = k)).isEmpty then [{ r with desc := none }]
    else (dmap.filter fun p => decide (p.1 = k)).map fun p => { r with desc := some p.2 }

/-- Left join on `key_norm` (line 133). -/
def joinLeft (rows : List EnrichedRow) (dmap : List (Str × List (Option Str))) :
    List EnrichedRow :=
  (rows.map (joinRow dmap)).flatten

/-- Descriptor row for a key in the mapping (first entry with that key). -/
def lookupKey (dmap : List (Str × List (Option Str))) (k : Str) :
    Option (List (Option Str)) :=
  (dmap.find? fun p => decide (p.1 = k)).map Prod.snd

/-- The whole per-file lazy frame: project to the superset, attach year,
sequence and ID, attach the join key, and left-join the dictionary mapping
when the principal-substance column exists.  `none` models the `ValueError`
raised when no year can be extracted from the file name. -/
def build_lazy_for_csv (f : SrcFile) (superset : List Str)
    (dmap : List (Str × List (Option Str))) : Option (List EnrichedRow) :=
  (year_from_filename f.name).map fun ano =>
    if principioAtivo ∈ superset then
      joinLeft ((addAnoIdx ano (projectFile superset f)).map (addKey superset)) dmap
    else (addAnoIdx ano (projectFile superset f)).map (addKey superset)

/-- All per-file frames, in sorted-file order (`lazy_frames`, lines 180-184);
`none` when any file aborts the run. -/
def buildAll (superset : List Str) (dmap : List (Str × List (Option Str))) :
    List SrcFile → Option (List (List EnrichedRow))
  | [] => some []
  | f :: fs =>
    match build_lazy_for_csv f superset dmap, buildAll superset dmap fs with
    | some l, some ls => some (l :: ls)
    | _, _ => none

/-- The consolidated dataset (`pl.concat(lazy_frames)`, line 187): the
vertical union of the per-file frames over the superset computed from the
files themselves. -/
def mainRows (files : List SrcFile) (dmap : List (Str × List (Option Str))) :
    Option (List EnrichedRow) :=
  (buildAll (supersetCols files) dmap files).map List.flatten

theorem key_determined {m : List (Str × List (Option Str))}
    (hnd : (mapKeys m).Nodup) {k : Str} {d d' : List (Option Str)}
    (h : (k, d) ∈ m) (h' : (k, d') ∈ m) : d = d' := by
  induction m with
  | nil => simp at h
  | cons p ps ih =>
    have hnd1 : (p.1 :: List.map Prod.fst ps).Nodup := by
      simpa only [mapKeys, List.map_cons] using hnd
    have hnd' := List.nodup_cons.mp hnd1
    rcases List.mem_cons.mp h with rfl | h2
    · rcases List.mem_cons.mp h' with he | h'2
      · exact (congrArg Prod.snd he).symm
      · exfalso
        exact hnd'.1 (List.mem_map.mpr ⟨(k, d'), h'2, rfl⟩)
    · rcases List.mem_cons.mp h' with rfl | h'2
      · exfalso
        exact hnd'.1 (List.mem_map.mpr ⟨(k, d), h2, rfl⟩)
      · exact ih (by simpa only [mapKeys] using hnd'.2) h2 h'2

theorem lookupKey_eq_none_iff {m : List (Str × List (Option Str))} {k : Str} :
    lookupKey m k = none ↔ ∀ p ∈ m, p.1 ≠ k := by
  unfold lookupKey
  rw [Option.map_eq_none']
  rw [List.find?_eq_none]
  constructor
  · intro h p hp
    have := h p hp
    simpa using this
  · intro h p hp
    simpa using h p hp

theorem lookupKey_mem {m : List (Str × List (Option Str))} {k : Str}
    {d : List (Option Str)} (h : lookupKey m k = some d) : (k, d) ∈ m := by
  unfold lookupKey at h
  cases hf : m.find? fun p => decide (p.1 = k) with
  | none => rw [hf] at h; simp at h
  | some p =>
    rw [hf] at h
    have hp1 : p.1 = k := by simpa using List.find?_some hf
    have hp2 : p ∈ m := List.mem_of_find?_eq_some hf
    have hd : p.2 = d := by simpa using h
    rw [← hp1, ← hd]
    exact hp2

theorem lookupKey_of_mem {m : List (Str × List (Option Str))}
    (hnd : (mapKeys m).Nodup) {k : Str} {d : List (Option Str)}
    (h : (k, d) ∈ m) : lookupKey m k = some d := by
  cases hl : lookupKey m k with
  | none =>
    exact absurd rfl (lookupKey_eq_none_iff.mp hl (k, d) h)
  | some d' =>
    rw [key_determined hnd (lookupKey_mem hl) h]

theorem filter_key_eq {m : List (Str × List (Option Str))}
    (hnd : (mapKeys m).Nodup) (k : Str) :
    (m.filter fun p => decide (p.1 = k)) =
      match lookupKey m k with
      | none => []
      | some d => [(k, d)] := by
  induction m with
  | nil => rfl
  | cons p ps ih =>
    have hnd1 : (p.1 :: List.map Prod.fst ps).Nodup := by
      simpa only [mapKeys, List.map_cons] using hnd
    have hnd' := List.nodup_cons.mp hnd1
    by_cases hp : p.1 = k
    · rw [List.filter_cons_of_pos (by simpa using hp)]
      have htail : ps.filter (fun p => decide (p.1 = k)) = [] := by
        rw [List.filter_eq_nil_iff]
        intro q hq
        simp only [decide_eq_true_eq]
        intro hqk
        exact hnd'.1 (List.mem_map.mpr ⟨q, hq, hqk.trans hp.symm⟩)
      rw [htail]
      have hlook : lookupKey (p :: ps) k = some p.2 := by
        unfold lookupKey
        rw [List.find?_cons_of_pos _ (by simpa using hp)]
        rfl
      rw [hlook]
      rw [show p = (k, p.2) from Prod.ext hp rfl]
    · rw [List.filter_cons_of_neg (by simpa using hp)]
      have hlook : lookupKey (p :: ps) k = lookupKey ps k := by
        unfold lookupKey
        rw [List.find?_cons_of_neg _ (by simpa using hp)]
      rw [hlook]
      exact ih (by simpa only [mapKeys] using hnd'.2)

theorem joinRow_length {dmap : List (Str × List (Option Str))}
    (hnd : (mapKeys dmap).Nodup) (r : EnrichedRow) :
    (joinRow dmap r).length = 1 := by
  obtain ⟨vals, ano, rn, id, key, dsc⟩ := r
  cases key with
  | none => rfl
  | some k =>
    have hred : joinRow dmap ⟨vals, ano, rn, id, some k, dsc⟩ =
        if (dmap.filter fun p => decide (p.1 = k)).isEmpty
        then [⟨vals, ano, rn, id, some k, none⟩]
        else (dmap.filter fun p => decide (p.1 = k)).map
          fun p => ⟨vals, ano, rn, id, some k, some p.2⟩ := rfl
    rw [hred, filter_key_eq hnd k]
    cases hl : lookupKey dmap k with
    | none => rfl
    | some d => rfl

theorem joinRow_char {dmap : List (Str × List (Option Str))}
    (hnd : (mapKeys dmap).Nodup) (r e : EnrichedRow) (he : e ∈ joinRow dmap r) :
    e.key_norm = r.key_norm ∧
    e.desc = match r.key_norm with
             | none => none
             | some k => lookupKey dmap k := by
  obtain ⟨vals, ano, rn, id, key, dsc⟩ := r
  cases key with
  | none =>
    have hred : joinRow dmap ⟨vals, ano, rn, id, none, dsc⟩ =
        [⟨vals, ano, rn, id, none, none⟩] := rfl
    rw [hred] at he
    have h := List.mem_singleton.mp he
    exact ⟨by rw [h], by rw [h]⟩
  | some k =>
    have hred : joinRow dmap ⟨vals, ano, rn, id, some k, dsc⟩ =
        if (dmap.filter fun p => decide (p.1 = k)).isEmpty
        then [⟨vals, ano, rn, id, some k, none⟩]
        else (dmap.filter fun p => decide (p.1 = k)).map
          fun p => ⟨vals, ano, rn, id, some k, some p.2⟩ := rfl
    rw [hred, filter_key_eq hnd k] at he
    refine ⟨?_, ?_⟩ <;> show _
    case _ =>
      cases hl : lookupKey dmap k with
      | none =>
        rw [hl] at he
        simp only [List.isEmpty_nil, if_true] at he
        rw [List.mem_singleton.mp he]
      | some d =>
        rw [hl] at he
        simp only [List.isEmpty_cons, Bool.false_eq_true, if_false, List.map_cons,
          List.map_nil] at he
        rw [List.mem_singleton.mp he]
    case _ =>
      show e.desc = lookupKey dmap k
      cases hl : lookupKey dmap k with
      | none =>
        rw [hl] at he
        simp only [List.isEmpty_nil, if_true] at he
        rw [List.mem_singleton.mp he]
      | some d =>
        rw [hl] at he
        simp only [List.isEmpty_cons, Bool.false_eq_true, if_false, List.map_cons,
          List.map_nil] at he
        rw [List.mem_singleton.mp he]

theorem joinLeft_length {dmap : List (Str × List (Option Str))}
    (hnd : (mapKeys dmap).Nodup) (rows : List EnrichedRow) :
    (joinLeft rows dmap).length = rows.length := by
  induction rows with
  | nil => rfl
  | cons r rs ih =>
    show (joinRow dmap r ++ (rs.map (joinRow dmap)).flatten).length = rs.length + 1
    have ih' : ((rs.map (joinRow dmap)).flatten).length = rs.length := ih
    rw [List.length_append, joinRow_length hnd r, ih']
    omega

theorem projectFile_length (superset : List Str) (f : SrcFile) :
    (projectFile superset f).length = f.rows.length := List.length_map _ _

theorem addAnoIdx_length (ano : Str) (rows : List (List (Option Str))) :
    (addAnoIdx ano rows).length = rows.length := by
  rw [addAnoIdx, List.length_map, List.enum_length]

theorem build_lazy_length {f : SrcFile} {superset : List Str}
    {dmap : List (Str × List (Option Str))} {out : List EnrichedRow}
    (hnd : (mapKeys dmap).Nodup)
    (hb : build_lazy_for_csv f superset dmap = some out) :
    out.length = f.rows.length := by
  unfold build_lazy_for_csv at hb
  cases hy : year_from_filename f.name with
  | none => rw [hy] at hb; simp at hb
  | some ano =>
    rw [hy] at hb
    simp only [Option.map_some', Option.some_inj] at hb
    rw [← hb]
    by_cases hP : principioAtivo ∈ superset
    · rw [if_pos hP, joinLeft_length hnd, List.length_map, addAnoIdx_length,
        projectFile_length]
    · rw [if_neg hP, List.length_map, addAnoIdx_length, projectFile_length]

theorem buildAll_counts {superset : List Str} {dmap : List (Str × List (Option Str))}
    (hnd : (mapKeys dmap).Nodup) :
    ∀ {files : List SrcFile} {ls : List (List EnrichedRow)},
      buildAll superset dmap files = some ls →
      ls.length = files.length ∧
      (∀ i f l, files.get? i = some f → ls.get? i = some l → l.length = f.rows.length) ∧
      ls.flatten.length = (files.map fun f => f.rows.length).sum := by
  intro files
  induction files with
  | nil =>
    intro ls hb
    simp only [buildAll, Option.some_inj] at hb
    subst hb
    exact ⟨rfl, fun i f l hf _ => by simp at hf, by simp⟩
  | cons f fs ih =>
    intro ls hb
    cases hbf : build_lazy_for_csv f superset dmap with
    | none => rw [buildAll, hbf] at hb; simp at hb
    | some l =>
      cases hba : buildAll superset dmap fs with
      | none => rw [buildAll, hbf, hba] at hb; simp at hb
      | some ls' =>
        rw [buildAll, hbf, hba] at hb
        simp only [Option.some_inj] at hb
        subst hb
        obtain ⟨h1, h2, h3⟩ := ih hba
        refine ⟨by simpa using h1, ?_, ?_⟩
        · intro i g gl hg hgl
          cases i with
          | zero =>
            simp only [List.get?] at hg hgl
            rw [← Option.some_inj.mp hg, ← Option.some_inj.mp hgl]
            exact build_lazy_length hnd hbf
          | succ j => exact h2 j g gl hg hgl
        · rw [List.flatten_cons, List.length_append, List.map_cons, List.sum_cons,
            build_lazy_length hnd hbf, h3]

/-- C10: because the mapping carries pairwise-distinct keys, the left join
neither duplicates nor drops rows — every per-file frame has exactly as many
rows as were parsed from its CSV, and the consolidated frame's row count is
the sum of the per-file counts. -/
theorem c10_join_preserves_row_counts (files : List SrcFile)
    (dmap : List (Str × List (Option Str))) (ls : List (List EnrichedRow))
    (hnd : (mapKeys dmap).Nodup)
    (hb : buildAll (supersetCols files) dmap files = some ls) :
    (∀ i f l, files.get? i = some f → ls.get? i = some l → l.length = f.rows.length) ∧
    mainRows files dmap = some ls.flatten ∧
    ls.flatten.length = (files.map fun f => f.rows.length).sum := by
  obtain ⟨_, h2, h3⟩ := buildAll_counts hnd hb
  refine ⟨h2, ?_, h3⟩
  rw [mainRows, hb]
  rfl

/-- Dictionary mapping used in the concrete scenarios: one entry. -/
def exDmap : List (Str × List (Option Str)) :=
  [("AMOXICILINA".data, [some "descA".data])]

/-- Concrete 2020 source file: three rows, one matching the dictionary. -/
def exFile2020 : SrcFile :=
  ⟨"grouped_2020.csv".data, [principioAtivo],
   [[some "Amoxicilina".data], [some "desconhecido".data], [none]]⟩

/-- Concrete 2021 source file: two rows, one matching the dictionary. -/
def exFile2021 : SrcFile :=
  ⟨"grouped_2021.csv".data, [principioAtivo],
   [[some " amoxicilina  ".data], [some "outra".data]]⟩

/-- The per-file frames the pipeline computes on the two concrete files. -/
def exLs : List (List EnrichedRow) :=
  (buildAll (supersetCols [exFile2020, exFile2021]) exDmap [exFile2020, exFile2021]).getD []

/-- Witness for C10 at the two concrete files (3 + 2 rows). -/
theorem c10_join_preserves_row_counts_witness :
    mainRows [exFile2020, exFile2021] exDmap = some exLs.flatten ∧
    exLs.flatten.length = ([exFile2020, exFile2021].map fun f => f.rows.length).sum :=
  ⟨(c10_join_preserves_row_counts [exFile2020, exFile2021] exDmap exLs (by decide) rfl).2.1,
   (c10_join_preserves_row_counts [exFile2020, exFile2021] exDmap exLs (by decide) rfl).2.2⟩

/-- C7: in every successfully built per-file frame, a row whose normalized key
is present in the mapping carries exactly that entry's descriptors, and a row
whose key is absent (or null) carries null descriptors. -/
theorem c7_descriptor_round_trip (f : SrcFile) (superset : List Str)
    (dmap : List (Str × List (Option Str))) (out : List EnrichedRow)
    (hnd : (mapKeys dmap).Nodup)
    (hb : build_lazy_for_csv f superset dmap = some out)
    (e : EnrichedRow) (he : e ∈ out) :
    (∀ k d, e.key_norm = some k → (k, d) ∈ dmap → e.desc = some d) ∧
    ((∀ k, e.key_norm = some k → k ∉ mapKeys dmap) → e.desc = none) := by
  unfold build_lazy_for_csv at hb
  cases hy : year_from_filename f.name with
  | none => rw [hy] at hb; simp at hb
  | some ano =>
    rw [hy] at hb
    simp only [Option.map_some', Option.some_inj] at hb
    subst hb
    by_cases hP : principioAtivo ∈ superset
    · rw [if_pos hP] at he
      obtain ⟨sub, hsub, hesub⟩ := List.mem_flatten.mp he
      obtain ⟨r, _, hrsub⟩ := List.mem_map.mp hsub
      rw [← hrsub] at hesub
      obtain ⟨hkey, hdesc⟩ := joinRow_char hnd r e hesub
      constructor
      · intro k d hk hmem
        have hrk : r.key_norm = some k := hkey.symm.trans hk
        rw [hrk] at hdesc
        rw [hdesc]
        exact lookupKey_of_mem hnd hmem
      · intro habs
        cases hek : e.key_norm with
        | none =>
          have hrk : r.key_norm = none := hkey.symm.trans hek
          rw [hrk] at hdesc
          exact hdesc
        | some k =>
          have hrk : r.key_norm = some k := hkey.symm.trans hek
          rw [hrk] at hdesc
          rw [hdesc]
          show lookupKey dmap k = none
          apply Option.map_eq_none'.mpr
          rw [List.find?_eq_none]
          intro p hp
          simp only [decide_eq_true_eq]
          intro hpk
          exact habs k hek (List.mem_map.mpr ⟨p, hp, hpk⟩)
    · rw [if_neg hP] at he
      obtain ⟨r, _, hre⟩ := List.mem_map.mp he
      constructor
      · intro k d hk _
        exfalso
        rw [← hre] at hk
        simp only [addKey, if_neg hP] at hk
        exact Option.noConfusion hk
      · intro _
        rw [← hre]
        rfl

/-- A frame the builder computes on the concrete 2020 file. -/
def exOut7 : List EnrichedRow :=
  (build_lazy_for_csv exFile2020 [principioAtivo] exDmap).getD []

/-- The first enriched row of that frame: the matching row. -/
def exE7 : EnrichedRow :=
  ⟨[some "Amoxicilina".data], "2020".data, 1, "2020-00000001".data,
   some "AMOXICILINA".data, some [some "descA".data]⟩

/-- Witness for C7: the matching row of the concrete file carries the
dictionary entry's descriptors. -/
theorem c7_descriptor_round_trip_witness :
    exE7.desc = some [some "descA".data] :=
  (c7_descriptor_round_trip exFile2020 [principioAtivo] exDmap exOut7
      (by decide) rfl exE7 (by decide)).1
    ("AMOXICILINA".data) [some "descA".data] rfl (by decide)

/-! ## Consolidator column handling and the unmatched report (lines 189-228) -/

/-- Column names of an enriched per-file frame, in polars order:
`with_row_index` puts `row_number` first, then the superset projection, then
the appended `ano`, `ID` and `key_norm` columns, then the joined descriptor
columns (only when the join ran). -/
def enrichedCols (superset descCols : List Str) : List Str :=
  "row_number".data :: superset ++ ["ano".data, "ID".data, "key_norm".data] ++
    (if principioAtivo ∈ superset then descCols else [])

/-- `cols_to_drop` (lines 190-195). -/
def cols_to_drop : List Str :=
  ["ANO_VENDA".data, "row_number".data, "key_norm".data, "_duplicated_0".data]

/-- Columns of the consolidated frame after the drop (lines 196-198). -/
def finalCols (superset descCols : List Str) : List Str :=
  (enrichedCols superset descCols).filter fun c => decide (c ∉ cols_to_drop)

/-- The unmatched-report step (lines 210-228): the block runs only when the
superset has a `PRINCIPIO_ATIVO` column; it then builds per-year counts of
rows whose `key_norm` is null and sinks them to a CSV.  Resolving the plan
references column `key_norm` of the consolidated frame: when that column no
longer exists the query raises, the surrounding try/except catches it, and no
report is produced (`none`). -/
def unmatched_report (superset descCols : List Str) (rows : List EnrichedRow) :
    Option (List (Str × Nat)) :=
  if principioAtivo ∈ superset then
    if "key_norm".data ∈ finalCols superset descCols then
      some ((dedupStrs (rows.map fun r => r.ano)).filterMap fun a =>
        if (rows.filter fun r => decide (r.ano = a) && r.key_norm.isNone).length = 0
        then none
        else some (a, (rows.filter fun r => decide (r.ano = a) && r.key_norm.isNone).length))
    else none
  else none

/-- C3: the auxiliary unmatched report is never written.  The `key_norm`
column the report relies on is in `cols_to_drop` and is removed from the
consolidated frame before the report block runs, so the report query always
fails and is swallowed by the try/except; when `PRINCIPIO_ATIVO` is absent the
block is skipped outright.  The spec's expected `2020,2` / `2021,1` report is
therefore not produced on any input. -/
theorem c3_unmatched_report_never_written (superset descCols : List Str)
    (rows : List EnrichedRow) :
    unmatched_report superset descCols rows = none := by
  unfold unmatched_report
  by_cases hP : principioAtivo ∈ superset
  · rw [if_pos hP, if_neg]
    intro hmem
    have hc := (List.mem_filter.mp hmem).2
    simp only [decide_eq_true_eq] at hc
    exact hc (by decide)
  · rw [if_neg hP]

/-! ## Run-to-run determinism of the consolidation (C5) -/

theorem lookup_congr {raw m : List (Str × List (Option Str))}
    (hraw : (mapKeys raw).Nodup) (hm : IsUniqueAny raw m) (k : Str) :
    lookupKey m k = lookupKey raw k := by
  cases hr : lookupKey raw k with
  | none =>
    apply lookupKey_eq_none_iff.mpr
    intro p hp
    exact lookupKey_eq_none_iff.mp hr p (hm.2.1 p hp)
  | some d =>
    have hmem := lookupKey_mem hr
    have hk : k ∈ mapKeys m := hm.2.2 (k, d) hmem
    obtain ⟨p, hp, hpk⟩ := List.mem_map.mp hk
    have hpe : p = (k, p.2) := Prod.ext hpk rfl
    have hpr' : (k, p.2) ∈ raw := hpe ▸ hm.2.1 p hp
    have hpd : p.2 = d := key_determined hraw hpr' hmem
    have hpm : (k, p.2) ∈ m := hpe ▸ hp
    rw [lookupKey_of_mem hm.1 hpm, hpd]

theorem joinRow_congr {m1 m2 : List (Str × List (Option Str))}
    (h1 : (mapKeys m1).Nodup) (h2 : (mapKeys m2).Nodup)
    (hl : ∀ k, lookupKey m1 k = lookupKey m2 k) (r : EnrichedRow) :
    joinRow m1 r = joinRow m2 r := by
  obtain ⟨vals, ano, rn, id, key, dsc⟩ := r
  cases key with
  | none => rfl
  | some k =>
    have e1 : joinRow m1 ⟨vals, ano, rn, id, some k, dsc⟩ =
        if (m1.filter fun p => decide (p.1 = k)).isEmpty
        then [⟨vals, ano, rn, id, some k, none⟩]
        else (m1.filter fun p => decide (p.1 = k)).map
          fun p => ⟨vals, ano, rn, id, some k, some p.2⟩ := rfl
    have e2 : joinRow m2 ⟨vals, ano, rn, id, some k, dsc⟩ =
        if (m2.filter fun p => decide (p.1 = k)).isEmpty
        then [⟨vals, ano, rn, id, some k, none⟩]
        else (m2.filter fun p => decide (p.1 = k)).map
          fun p => ⟨vals, ano, rn, id, some k, some p.2⟩ := rfl
    rw [e1, e2, filter_key_eq h1 k, filter_key_eq h2 k, hl k]

theorem build_lazy_congr (f : SrcFile) (superset : List Str)
    {m1 m2 : List (Str × List (Option Str))}
    (h1 : (mapKeys m1).Nodup) (h2 : (mapKeys m2).Nodup)
    (hl : ∀ k, lookupKey m1 k = lookupKey m2 k) :
    build_lazy_for_csv f superset m1 = build_lazy_for_csv f superset m2 := by
  unfold build_lazy_for_csv
  apply Option.map_congr
  intro ano _
  by_cases hP : principioAtivo ∈ superset
  · rw [if_pos hP, if_pos hP]
    unfold joinLeft
    rw [List.map_congr_left fun r _ => joinRow_congr h1 h2 hl r]
  · rw [if_neg hP, if_neg hP]

theorem buildAll_congr {superset : List Str} {m1 m2 : List (Str × List (Option Str))}
    (h1 : (mapKeys m1).Nodup) (h2 : (mapKeys m2).Nodup)
    (hl : ∀ k, lookupKey m1 k = lookupKey m2 k) :
    ∀ files : List SrcFile, buildAll superset m1 files = buildAll superset m2 files := by
  intro files
  induction files with
  | nil => rfl
  | cons f fs ih =>
    show (match build_lazy_for_csv f superset m1, buildAll superset m1 fs with
          | some l, some ls => some (l :: ls)
          | _, _ => none) =
         (match build_lazy_for_csv f superset m2, buildAll superset m2 fs with
          | some l, some ls => some (l :: ls)
          | _, _ => none)
    rw [build_lazy_congr f superset h1 h2 hl, ih]

/-- C5 (amended): provided the long dictionary table has no two rows with the
same normalized key, the dedup outcome is semantically unique, and any two
runs on unchanged inputs produce the same consolidated rows, values and
order. -/
theorem c5_deterministic_when_keys_unique (files : List SrcFile)
    (raw m1 m2 : List (Str × List (Option Str)))
    (hraw : (mapKeys raw).Nodup)
    (h1 : IsUniqueAny raw m1) (h2 : IsUniqueAny raw m2) :
    mainRows files m1 = mainRows files m2 := by
  have hl : ∀ k, lookupKey m1 k = lookupKey m2 k := fun k =>
    (lookup_congr hraw h1 k).trans (lookup_congr hraw h2 k).symm
  unfold mainRows
  rw [buildAll_congr h1.1 h2.1 hl files]

/-- C5 counterexample: when the long dictionary table has two rows with the
same normalized key (the claim does not exclude this), `unique(keep="any")`
admits two different mappings, and two runs on the identical input files and
dictionary may produce different consolidated row content. -/
theorem c5_duplicate_key_counterexample :
    IsUniqueAny (dictLong exDictRows 1) [("AMOXICILINA".data, [some "descA".data])] ∧
    IsUniqueAny (dictLong exDictRows 1) [("AMOXICILINA".data, [some "descB".data])] ∧
    mainRows [exFile2020] [("AMOXICILINA".data, [some "descA".data])] ≠
      mainRows [exFile2020] [("AMOXICILINA".data, [some "descB".data])] := by
  refine ⟨by decide, by decide, by decide⟩

/-- Witness for the amended C5 at the concrete two-file run. -/
theorem c5_deterministic_witness :
    mainRows [exFile2020, exFile2021] exDmap = mainRows [exFile2020, exFile2021] exDmap :=
  c5_deterministic_when_keys_unique [exFile2020, exFile2021] exDmap exDmap exDmap
    (by decide) (by decide) (by decide)
